import Mathlib

/-!
Shallow embedding of the bounded string / numeric-text utility library
(`aiutils.c`).  Byte strings are modelled as `List Nat` (byte values 0..255);
a C string stored in a buffer is the prefix of the buffer up to the first
zero byte.  Output buffers are modelled explicitly as `List Nat` pre-states
that the embedded functions transform, so that "no write beyond capacity"
is expressible.  Possibly-null pointers are modelled as `Option (List Nat)`.
-/

/-- ASCII `tolower` as applied by `strcmpii` (fold `A`..`Z` to `a`..`z`). -/
def tolowerB (c : Nat) : Nat := if 65 ≤ c ∧ c ≤ 90 then c + 32 else c

/-- Copy loop of `strzcpy`: `d` is the destination buffer, `s` the remaining
source bytes, `i` the current write index, `dsize` the remaining size
counter.  Mirrors `while (*s && --dsize) *d++ = *s++; *d = 0;`. -/
def strzcpyAux : List Nat → List Nat → Nat → Nat → List Nat
  | d, [], i, _ => d.set i 0
  | d, c :: s, i, dsize =>
    if c = 0 then d.set i 0
    else if dsize - 1 = 0 then d.set i 0
    else strzcpyAux (d.set i c) s (i + 1) (dsize - 1)

/-- `strzcpy(d, s, dsize)` (aiutils.c:14): protected string copy.
Returns the post-state of the destination buffer `d`. -/
def strzcpy (d s : List Nat) (dsize : Nat) : List Nat :=
  if dsize = 0 then d else strzcpyAux d s 0 dsize

/-- `strcmpii(s1, s2)` (aiutils.c:44): case-insensitive three-way compare.
The end of a list plays the role of the terminator; an explicit 0 byte
inside the list is also treated as a terminator, exactly as in C. -/
def strcmpii : List Nat → List Nat → Int
  | [], [] => 0
  | [], c2 :: _ => if tolowerB c2 = 0 then 0 else -(tolowerB c2 : Int)
  | c1 :: _, [] => if tolowerB c1 = 0 then 0 else (tolowerB c1 : Int)
  | c1 :: s1, c2 :: s2 =>
    if tolowerB c1 = tolowerB c2 then
      (if c1 = 0 then 0 else strcmpii s1 s2)
    else (tolowerB c1 : Int) - (tolowerB c2 : Int)

/-- Digit-writing loop of `fitoa` (aiutils.c:83): the do/while loop.
`p` is the index one past the next digit slot (the C pointer `p` minus `s`);
each iteration first checks `p <= s` (star fill), then stores a digit at
`p - 1` and divides `n` by 10, repeating while `n` is nonzero; on exit the
remaining left portion `[0, p)` is filled with spaces.  Byte values:
42 = `*`, 32 = space, 48 = `0`. -/
def fitoaAux (wid : Nat) : Nat → Nat → List Nat → List Nat
  | _, 0, buf => List.replicate wid 42 ++ buf.drop wid
  | n, p + 1, buf =>
    if n / 10 = 0 then List.replicate p 32 ++ ((buf.set p (48 + n % 10)).drop p)
    else fitoaAux wid (n / 10) p (buf.set p (48 + n % 10))

/-- `fitoa(n, wid, s)` (aiutils.c:77): right-justified fixed-width decimal
render.  Writes the terminator at index `wid` first, then runs the loop. -/
def fitoa (n wid : Nat) (s : List Nat) : List Nat :=
  fitoaAux wid n wid (s.set wid 0)

/-- Fuel-indexed decimal digits of `n`, most significant first, as byte
values (`48 + digit`).  Any `fuel > n` gives the true digit list. -/
def decDigitsAux : Nat → Nat → List Nat
  | 0, _ => []
  | fuel + 1, n =>
    if n < 10 then [48 + n] else decDigitsAux fuel (n / 10) ++ [48 + n % 10]

/-- Decimal digit bytes of `n`, most significant first (`0` renders as `[48]`). -/
def decDigits (n : Nat) : List Nat := decDigitsAux (n + 1) n

/-- The unpadded decimal rendering used by `numzcat` (aiutils.c:104):
`fitoa` into an 11-wide field followed by skipping the leading space bytes
(`for (p = b; *p == ' '; p++);`), read back as a C string. -/
def fitoaUnpadded (n : Nat) : List Nat :=
  ((fitoa n 11 (List.replicate 12 0)).dropWhile (fun c => c == 32)).takeWhile
    (fun c => c != 0)

/-- ASCII whitespace as classified by `strtoll` / `isspace`:
space (32), tab (9), LF (10), VT (11), FF (12), CR (13). -/
def isWsB (c : Nat) : Bool := c == 32 || decide (9 ≤ c ∧ c ≤ 13)

/-- ASCII decimal digit `0`..`9`. -/
def isDigitB (c : Nat) : Bool := decide (48 ≤ c ∧ c ≤ 57)

/-- Result of the modelled `strtoll`: the parsed value, the number of bytes
consumed (`eptr - nptr`), and whether `errno` was set to `ERANGE`. -/
structure Strtoll where
  value : Int
  consumed : Nat
  erange : Bool

/-- The part of the `strtoll` input after the leading whitespace. -/
def afterWs (s : List Nat) : List Nat := s.dropWhile isWsB

/-- Length of the leading-whitespace run skipped by `strtoll`. -/
def wsLen (s : List Nat) : Nat := (s.takeWhile isWsB).length

/-- Whether `strtoll` finds a sign byte after the leading whitespace. -/
def hasSignB (s : List Nat) : Bool :=
  (afterWs s).headD 0 == 45 || (afterWs s).headD 0 == 43

/-- Whether the sign that `strtoll` finds is a minus. -/
def negB (s : List Nat) : Bool := (afterWs s).headD 0 == 45

/-- The run of decimal digits consumed by `strtoll` (after whitespace and
the optional sign). -/
def digitsPart (s : List Nat) : List Nat :=
  (if hasSignB s then (afterWs s).tail else afterWs s).takeWhile isDigitB

/-- The magnitude accumulated by `strtoll` from the digit run. -/
def magnitude (s : List Nat) : Nat :=
  (digitsPart s).foldl (fun a c => a * 10 + (c - 48)) 0

/-- The signed value of the parse before range clamping. -/
def signedVal (s : List Nat) : Int :=
  if negB s then -(magnitude s : Int) else (magnitude s : Int)

/-- `eptr - nptr`: whitespace, the optional sign, and the digit run. -/
def consumedLen (s : List Nat) : Nat :=
  wsLen s + (if hasSignB s then 1 else 0) + (digitsPart s).length

/-- Model of C `strtoll(nptr, &eptr, 10)` on a zero-free byte list:
skip leading whitespace, then an optional single sign, then decimal digits.
If no digit follows, nothing is consumed and 0 is returned.  On overflow of
the signed 64-bit range the result is clamped and `errno` is `ERANGE`. -/
def strtoll10 (s : List Nat) : Strtoll :=
  if digitsPart s = [] then ⟨0, 0, false⟩
  else if signedVal s < -(2 ^ 63) ∨ 2 ^ 63 ≤ signedVal s then
    ⟨if negB s then -(2 ^ 63) else 2 ^ 63 - 1, consumedLen s, true⟩
  else ⟨signedVal s, consumedLen s, false⟩

/-- The scratch C string `str2conv` built by `decatoi`'s `strncpy`: the
first `length` bytes of the slice, cut at the first embedded zero byte. -/
def str2conv (s : List Nat) (len : Nat) : List Nat :=
  (s.take len).takeWhile (fun c => c != 0)

/-- `decatoi(string, length, value)` (aiutils.c:133): ascii-to-integer via
`strncpy` into a 21-byte scratch buffer and `strtoll`.  `none` models the
failure return 0 (with `*value` untouched); `some v` models success with
`*value = v`.  The guards mirror the source: length > 20, `errno`, the
`eptr - str2conv != length` check, and the `*eptr != 0` check. -/
def decatoi (s : List Nat) (len : Nat) : Option Int :=
  if 20 < len then none
  else if (strtoll10 (str2conv s len)).erange then none
  else if (strtoll10 (str2conv s len)).consumed ≠ len then none
  else if (str2conv s len ++ [0]).getD (strtoll10 (str2conv s len)).consumed 0 ≠ 0 then none
  else some (strtoll10 (str2conv s len)).value

/-- Signed 64-bit reading of a bit pattern in `[0, 2^64)`. -/
def toSigned64 (a : Nat) : Int := if a < 2 ^ 63 then (a : Int) else (a : Int) - 2 ^ 64

/-- Scanning loop of `hexatoi` (aiutils.c:190): `retcode` and `sign` are the
local variables, `acc` is the 64-bit bit pattern currently stored in
`*value`.  Digits shift-accumulate (`*value = (*value << 4) | digit`, a
wrap-around on the 64-bit pattern); space / `-` / `+` set bit 2 of
`retcode`, the signs recording the last one seen; any other byte returns
failure code 1 at once, leaving the partially accumulated `*value`.  At the
end the value is negated (two's-complement) when the recorded sign is -1. -/
def hexatoiLoop : List Nat → Nat → Int → Nat → Nat × Int
  | [], retcode, sign, acc =>
    (retcode, toSigned64 (if sign = -1 then (2 ^ 64 - acc) % 2 ^ 64 else acc))
  | c :: rest, retcode, sign, acc =>
    if 48 ≤ c ∧ c ≤ 57 then hexatoiLoop rest retcode sign ((acc * 16 + (c - 48)) % 2 ^ 64)
    else if 65 ≤ c ∧ c ≤ 70 then hexatoiLoop rest retcode sign ((acc * 16 + (c + 10 - 65)) % 2 ^ 64)
    else if 97 ≤ c ∧ c ≤ 102 then hexatoiLoop rest retcode sign ((acc * 16 + (c + 10 - 97)) % 2 ^ 64)
    else if c = 32 then hexatoiLoop rest (retcode ||| 4) sign acc
    else if c = 45 then hexatoiLoop rest (retcode ||| 4) (-1) acc
    else if c = 43 then hexatoiLoop rest (retcode ||| 4) 1 acc
    else (1, toSigned64 acc)

/-- `hexatoi(string, length, value)` (aiutils.c:181): returns the pair
(return code, final `*value`); `*value` is initialised to 0 on entry. -/
def hexatoi (s : List Nat) (len : Nat) : Nat × Int :=
  hexatoiLoop (s.take len) 0 0 0

/-- A byte `hexatoi` accepts: hex digit, space, or a sign. -/
def goodHexB (c : Nat) : Bool :=
  decide ((48 ≤ c ∧ c ≤ 57) ∨ (65 ≤ c ∧ c ≤ 70) ∨ (97 ≤ c ∧ c ≤ 102))
    || c == 32 || c == 45 || c == 43

/-- A sign or space byte (the classes that set bit 2 of the return code). -/
def isSignSpaceB (c : Nat) : Bool := c == 32 || c == 45 || c == 43

/-- Left-to-right shift-accumulation of the hex digits of a byte list into a
64-bit pattern, starting from `acc`; non-digit bytes are skipped. -/
def hexAccumFrom : Nat → List Nat → Nat
  | acc, [] => acc
  | acc, c :: rest =>
    if 48 ≤ c ∧ c ≤ 57 then hexAccumFrom ((acc * 16 + (c - 48)) % 2 ^ 64) rest
    else if 65 ≤ c ∧ c ≤ 70 then hexAccumFrom ((acc * 16 + (c + 10 - 65)) % 2 ^ 64) rest
    else if 97 ≤ c ∧ c ≤ 102 then hexAccumFrom ((acc * 16 + (c + 10 - 97)) % 2 ^ 64) rest
    else hexAccumFrom acc rest

/-- The sign recorded after scanning a byte list, starting from `sg`:
`-1` after a `-` (45), `1` after a `+` (43), so the last sign byte wins. -/
def lastSign : Int → List Nat → Int
  | sg, [] => sg
  | sg, c :: rest =>
    if c = 45 then lastSign (-1) rest
    else if c = 43 then lastSign 1 rest
    else lastSign sg rest

/-- Model of C `strncpy(dest, src, n)` restricted to the `n` written bytes:
the source bytes up to the first zero, zero-padded to length `n`. -/
def strncpyList (src : List Nat) (n : Nat) : List Nat :=
  let t := (src.take n).takeWhile (fun c => c != 0)
  t ++ List.replicate (n - t.length) 0

/-- `replace_char_inplace(str, ch, newch, skipends)` (aiutils.c:335) on a
buffer: replaces `ch` by `newch` in the C-string prefix, skipping index 0
and the last index when `skipends` is set. -/
def replace_char_inplace (str : List Nat) (ch newch : Nat) (skipends : Bool) : List Nat :=
  let len := (str.takeWhile (fun c => c != 0)).length
  if len = 0 then str
  else
    str.mapIdx fun i c =>
      if i < len ∧ c = ch ∧ ¬(skipends ∧ (i = 0 ∨ i = len - 1)) then newch else c

/-- `replace_char_safe_copy(dest, src, dest_size, ch, newch, skipends)`
(aiutils.c:359).  Outer `none` means the call wrote through a null `dest`
(the guard body `if (dest_size > 0) dest[0] = 0;` does not re-check `dest`);
`some d` is a completed call with final `dest` contents `d` (`none` inside
when `dest` is null and nothing was written). -/
def replace_char_safe_copy (dest src : Option (List Nat)) (dest_size : Nat)
    (ch newch : Nat) (skipends : Bool) : Option (Option (List Nat)) :=
  match dest, src with
  | some d, some sr =>
    if dest_size = 0 then some (some d)
    else some (some (replace_char_inplace (strzcpy d sr dest_size) ch newch skipends))
  | some d, none => some (some (if 0 < dest_size then d.set 0 0 else d))
  | none, _ => if 0 < dest_size then none else some none

/-- `substring_safe_copy(dest, src, dest_size, position, length)`
(aiutils.c:381).  Returns the final `dest` contents, or `none` when `dest`
is null (this function's guard does check `dest != NULL` before writing). -/
def substring_safe_copy (dest src : Option (List Nat))
    (dest_size position length : Nat) : Option (List Nat) :=
  match dest, src with
  | some d, some sr =>
    if dest_size = 0 then some d
    else
      let src_len := (sr.takeWhile (fun c => c != 0)).length
      if position ≥ src_len then some (d.set 0 0)
      else
        let chars_available := src_len - position
        let copy_len0 := if length < chars_available then length else chars_available
        let max_dest_copy := dest_size - 1
        let copy_len := if copy_len0 > max_dest_copy then max_dest_copy else copy_len0
        some ((strncpyList (sr.drop position) copy_len ++ d.drop copy_len).set copy_len 0)
  | some d, none => some (if 0 < dest_size then d.set 0 0 else d)
  | none, _ => none

/-- The character-reading part of C `fgets(buf, n, stream)` on a byte-list
stream with `n - 1 = k` capacity: returns the bytes stored (stopping after
a LF, byte 10) and the remaining stream. -/
def fgetsChars : Nat → List Nat → List Nat × List Nat
  | 0, st => ([], st)
  | _ + 1, [] => ([], [])
  | k + 1, c :: st =>
    if c = 10 then ([c], st)
    else
      let r := fgetsChars k st
      (c :: r.1, r.2)

/-- The drain loop `while ((ch = fgetc(stream)) != '\n' && ch != EOF);`:
consumes the stream up to and including the next LF. -/
def drainLine : List Nat → List Nat
  | [] => []
  | c :: st => if c = 10 then st else drainLine st

/-- `safe_gets(buf, buf_size, stream)` (aiutils.c:466).  Returns `none` for
the NULL result (EOF before any byte, or `buf_size = 0`), else the final
buffer contents paired with the remaining stream.  `len` is
`strcspn(buf, "\r\n")` (first 0, 13 or 10 byte); the drain of the rest of
the line runs only under the source's condition
`len == buf_size - 1 && buf[len] != '\0'`, evaluated after `buf[len] = '\0'`. -/
def safe_gets (buf : List Nat) (buf_size : Nat) (stream : List Nat) :
    Option (List Nat × List Nat) :=
  if buf_size = 0 then none
  else if stream = [] then none
  else
    let r := fgetsChars (buf_size - 1) stream
    let buf1 := r.1 ++ [0] ++ buf.drop (r.1.length + 1)
    let len := (buf1.takeWhile (fun c => c != 0 && c != 13 && c != 10)).length
    let buf2 := buf1.set len 0
    if len = buf_size - 1 ∧ buf2.getD len 0 ≠ 0 then some (buf2, drainLine r.2)
    else some (buf2, r.2)

/-! ## Theorems -/

/-! ### List helper lemmas -/

theorem takeWhile_length_le (p : Nat → Bool) (l : List Nat) :
    (l.takeWhile p).length ≤ l.length := by
  induction l with
  | nil => simp
  | cons c l ih =>
    rw [List.takeWhile_cons]
    split
    · simpa using ih
    · simp

theorem takeWhile_getD (p : Nat → Bool) (l : List Nat) :
    ∀ k : Nat, k < (l.takeWhile p).length → p (l.getD k 0) = true := by
  induction l with
  | nil => simp
  | cons c l ih =>
    intro k hk
    rw [List.takeWhile_cons] at hk
    by_cases hc : p c = true
    · rw [if_pos hc] at hk
      cases k with
      | zero => simpa using hc
      | succ k =>
        rw [List.getD_cons_succ]
        exact ih k (by simpa using hk)
    · rw [if_neg hc] at hk
      simp at hk

theorem takeWhile_length_eq (p : Nat → Bool) (l : List Nat)
    (h : (l.takeWhile p).length = l.length) : l.takeWhile p = l := by
  induction l with
  | nil => simp
  | cons c l ih =>
    rw [List.takeWhile_cons] at h ⊢
    by_cases hc : p c = true
    · rw [if_pos hc] at h ⊢
      have := ih (by simpa using h)
      simp [this]
    · rw [if_neg hc] at h
      simp at h

theorem getD_take (s : List Nat) :
    ∀ (len k : Nat), k < len → (s.take len).getD k 0 = s.getD k 0 := by
  induction s with
  | nil => simp
  | cons c s ih =>
    intro len k hk
    cases len with
    | zero => omega
    | succ len =>
      rw [List.take_succ_cons]
      cases k with
      | zero => simp
      | succ k => simpa using ih len k (by omega)

theorem drop_set_of_lt (a : Nat) : ∀ (l : List Nat) (i j : Nat), i < j →
    (l.set i a).drop j = l.drop j := by
  intro l
  induction l with
  | nil => simp
  | cons c l ih =>
    intro i j h
    cases i with
    | zero =>
      cases j with
      | zero => omega
      | succ j => simp
    | succ i =>
      cases j with
      | zero => omega
      | succ j => simpa using ih i j (by omega)

theorem drop_set_self (l : List Nat) :
    ∀ (i a : Nat), i < l.length → (l.set i a).drop i = a :: l.drop (i + 1) := by
  induction l with
  | nil => simp
  | cons c l ih =>
    intro i a h
    cases i with
    | zero => simp
    | succ i => simpa using ih i a (by simpa using h)

theorem take_set_self (l : List Nat) :
    ∀ (i a : Nat), i < l.length → (l.set i a).take (i + 1) = l.take i ++ [a] := by
  induction l with
  | nil => simp
  | cons c l ih =>
    intro i a h
    cases i with
    | zero => simp
    | succ i =>
      simp only [List.set_cons_succ, List.take_succ_cons, List.cons_append,
        List.cons.injEq, true_and]
      exact ih i a (by simpa using h)

theorem dropWhile_replicate_append (p : Nat → Bool) (a : Nat) (h : p a = true) :
    ∀ (k : Nat) (l : List Nat), (List.replicate k a ++ l).dropWhile p = l.dropWhile p := by
  intro k
  induction k with
  | zero => simp
  | succ k ih =>
    intro l
    simp [List.replicate_succ, List.dropWhile_cons, h, ih l]

theorem takeWhile_append_stop (p : Nat → Bool) (x : Nat) (hx : p x = false) :
    ∀ (l1 l2 : List Nat), (∀ c ∈ l1, p c = true) → (l1 ++ x :: l2).takeWhile p = l1 := by
  intro l1
  induction l1 with
  | nil =>
    intro l2 _
    simp [List.takeWhile_cons, hx]
  | cons c l1 ih =>
    intro l2 h
    have hc : p c = true := h c (by simp)
    simp [List.takeWhile_cons, hc, ih l2 (fun d hd => h d (by simp [hd]))]

/-! ### Byte-class facts -/

theorem digit_not_ws {c : Nat} (h : isDigitB c = true) : isWsB c = false := by
  simp only [isDigitB, decide_eq_true_eq] at h
  simp only [isWsB, Bool.or_eq_false_iff, beq_eq_false_iff_ne, ne_eq,
    decide_eq_false_iff_not, not_and, not_le]
  omega

theorem tolowerB_eq_zero {c : Nat} : tolowerB c = 0 ↔ c = 0 := by
  unfold tolowerB
  split <;> omega

/-! ### C9: antisymmetry of strcmpii -/

/-- C9: the sign of `icase_compare(a, b)` (`strcmpii`) is the negation of
the sign of `icase_compare(b, a)`, for all byte strings `a`, `b`. -/
theorem strcmpii_antisymm : ∀ (a b : List Nat), (strcmpii a b).sign = -(strcmpii b a).sign := by
  intro a
  induction a with
  | nil =>
    intro b
    cases b with
    | nil => simp [strcmpii]
    | cons c2 s2 =>
      simp only [strcmpii]
      by_cases h : tolowerB c2 = 0
      · rw [if_pos h, if_pos h]
        simp
      · rw [if_neg h, if_neg h, Int.sign_neg]
  | cons c1 s1 ih =>
    intro b
    cases b with
    | nil =>
      simp only [strcmpii]
      by_cases h : tolowerB c1 = 0
      · rw [if_pos h, if_pos h]
        simp
      · rw [if_neg h, if_neg h, Int.sign_neg, neg_neg]
    | cons c2 s2 =>
      simp only [strcmpii]
      by_cases h : tolowerB c1 = tolowerB c2
      · rw [if_pos h, if_pos h.symm]
        by_cases h1 : c1 = 0
        · have h2 : c2 = 0 := by
            apply tolowerB_eq_zero.mp
            rw [← h, h1]
            simp [tolowerB]
          rw [if_pos h1, if_pos h2]
          simp
        · have h2 : c2 ≠ 0 := by
            intro hc2
            apply h1
            apply tolowerB_eq_zero.mp
            rw [h, hc2]
            simp [tolowerB]
          rw [if_neg h1, if_neg h2]
          exact ih s2
      · rw [if_neg h, if_neg (fun hh => h hh.symm)]
        have hneg : (tolowerB c2 : Int) - (tolowerB c1 : Int) =
            -((tolowerB c1 : Int) - (tolowerB c2 : Int)) := by ring
        rw [hneg, Int.sign_neg, neg_neg]

/-! ### C8: strzcpy -/

theorem strzcpyAux_spec :
    ∀ (s d : List Nat) (i dsize : Nat), (∀ c ∈ s, c ≠ 0) → 1 ≤ dsize →
      i + dsize ≤ d.length →
      strzcpyAux d s i dsize =
        d.take i ++ s.take (min s.length (dsize - 1)) ++ [0] ++
          d.drop (i + min s.length (dsize - 1) + 1) := by
  intro s
  induction s with
  | nil =>
    intro d i dsize _ h1 h2
    have hi : i < d.length := by omega
    simp only [strzcpyAux, List.take_nil, List.nil_append, List.length_nil]
    rw [List.set_eq_take_cons_drop 0 hi]
    simp
  | cons c s ih =>
    intro d i dsize hs h1 h2
    have hc : c ≠ 0 := hs c (by simp)
    have hi : i < d.length := by omega
    simp only [strzcpyAux]
    rw [if_neg hc]
    by_cases hd1 : dsize - 1 = 0
    · rw [if_pos hd1]
      have hm : min (c :: s).length (dsize - 1) = 0 := by
        rw [hd1]
        simp
      rw [hm, List.set_eq_take_cons_drop 0 hi]
      simp
    · rw [if_neg hd1]
      have h2a : (i + 1) + (dsize - 1) ≤ (d.set i c).length := by
        rw [List.length_set]
        omega
      rw [ih (d.set i c) (i + 1) (dsize - 1) (fun x hx => hs x (by simp [hx]))
        (by omega) h2a]
      have hm : min (c :: s).length (dsize - 1) = min s.length (dsize - 1 - 1) + 1 := by
        simp only [List.length_cons]
        omega
      rw [hm, take_set_self d i c hi,
        drop_set_of_lt c d i ((i + 1) + min s.length (dsize - 1 - 1) + 1) (by omega),
        List.take_succ_cons]
      have harith : (i + 1) + min s.length (dsize - 1 - 1) + 1 =
          i + (min s.length (dsize - 1 - 1) + 1) + 1 := by omega
      rw [harith]
      simp [List.append_assoc]

/-- C8: `safe_copy` (`strzcpy`).  With capacity 0 the destination buffer is
untouched; with capacity ≥ 1 the destination receives the longest prefix of
`s` of length at most `cap - 1` followed by a zero byte; and in all cases
no byte at index ≥ `cap` is modified. -/
theorem strzcpy_bounded (d s : List Nat) (cap : Nat)
    (hs : ∀ c ∈ s, c ≠ 0) (hd : cap ≤ d.length) :
    (cap = 0 → strzcpy d s cap = d) ∧
    (1 ≤ cap →
      strzcpy d s cap =
        s.take (min s.length (cap - 1)) ++ [0] ++
          d.drop (min s.length (cap - 1) + 1)) ∧
    (strzcpy d s cap).drop cap = d.drop cap := by
  have hmain : 1 ≤ cap →
      strzcpy d s cap =
        s.take (min s.length (cap - 1)) ++ [0] ++
          d.drop (min s.length (cap - 1) + 1) := by
    intro h
    unfold strzcpy
    rw [if_neg (by omega)]
    rw [strzcpyAux_spec s d 0 cap hs h (by omega)]
    simp
  refine ⟨fun h => by simp [strzcpy, h], hmain, ?_⟩
  by_cases hc : cap = 0
  · simp [strzcpy, hc]
  · rw [hmain (by omega)]
    have hk : min s.length (cap - 1) ≤ cap - 1 := by omega
    have hlen1 : (s.take (min s.length (cap - 1))).length = min s.length (cap - 1) := by
      rw [List.length_take]
      omega
    rw [List.drop_append_eq_append_drop, List.drop_append_eq_append_drop]
    rw [List.drop_eq_nil_of_le (by omega)]
    rw [List.drop_eq_nil_of_le (by simp [hlen1]; omega)]
    rw [List.drop_drop]
    have hfin : s.length ⊓ (cap - 1) + 1 +
        (cap - (List.take (s.length ⊓ (cap - 1)) s ++ [0]).length) = cap := by
      simp only [List.length_append, List.length_cons, List.length_nil, hlen1]
      omega
    rw [hfin]
    simp

/-- C8 witness: `safe_copy(dst, "ABCDE", 3)` leaves `dst = "AB"`:
two data bytes and the terminator, third byte of a 4-byte buffer untouched. -/
theorem strzcpy_bounded_witness :
    strzcpy [7, 7, 7, 7] [65, 66, 67, 68, 69] 3 = [65, 66, 0, 7] := by
  have h := (strzcpy_bounded [7, 7, 7, 7] [65, 66, 67, 68, 69] 3
    (by decide) (by decide)).2.1 (by decide)
  rw [h]
  rfl

/-- C1: the claim says a `safe_gets` call that fills the buffer without
finding a line terminator discards the rest of the physical line.  The code
does not: its drain condition reads `buf[len]` immediately after executing
`buf[len] = '\0'`, so the drain loop is dead code.  On the stream
`"abcdef\n"` with capacity 4 the call returns `"abc"` and leaves
`"def\n"` (not an empty / fresh-line stream) pending, so the next call
yields `"def"` rather than a fresh line. -/
theorem safe_gets_buffer_full_stream_state :
    safe_gets [0, 0, 0, 0] 4 [97, 98, 99, 100, 101, 102, 10] =
      some ([97, 98, 99, 0], [100, 101, 102, 10]) ∧
    safe_gets [97, 98, 99, 0] 4 [100, 101, 102, 10] =
      some ([100, 101, 102, 0], [10]) := by
  constructor <;> rfl

/-- C2 counterexample: `substring_safe_copy(dst, "0123456789", 5, 3, 4)`
does not leave the C string `"345"` in `dst` (it leaves `"3456"`). -/
theorem substring_safe_copy_s3_counterexample :
    ¬ ((substring_safe_copy (some [0, 0, 0, 0, 0])
          (some [48, 49, 50, 51, 52, 53, 54, 55, 56, 57]) 5 3 4).getD []).takeWhile
        (fun c => c != 0) = [51, 52, 53] := by
  decide

/-- C2 amended: the call copies `min(len, L - pos, cap - 1) = min(4, 7, 4) = 4`
bytes, so `dst` ends as the string `"3456"`: four data bytes `3456`
followed by a zero byte. -/
theorem substring_safe_copy_s3_actual :
    substring_safe_copy (some [0, 0, 0, 0, 0])
        (some [48, 49, 50, 51, 52, 53, 54, 55, 56, 57]) 5 3 4 =
      some [51, 52, 53, 54, 0] := by
  decide

/-- C3 counterexample: `decatoi` delegates to `strtoll`, which skips leading
whitespace, so the slice `" 123"` of length 4 parses successfully to 123
instead of failing with `*value` unchanged. -/
theorem decatoi_leading_space_accepted :
    decatoi [32, 49, 50, 51] 4 = some 123 := by
  decide

/-- C4: the claim says a null `dest` makes `replace_char_safe_copy` a safe
no-op, but the guard body executes `dest[0] = '\0'` whenever
`dest_size > 0` without re-checking `dest`, dereferencing the null pointer
(its siblings `trim_safe_copy` and `substring_safe_copy` do re-check).
At `dest = NULL`, `src = "a"`, `dest_size = 1` the call writes through null. -/
theorem replace_char_safe_copy_null_dest_write :
    replace_char_safe_copy none (some [97]) 1 32 95 false = none := by
  decide

/-! ### Decimal digit lists and C6: fitoa -/

theorem decDigitsAux_irrel :
    ∀ (f1 f2 n : Nat), n < f1 → n < f2 → decDigitsAux f1 n = decDigitsAux f2 n := by
  intro f1
  induction f1 with
  | zero => omega
  | succ f1 ih =>
    intro f2 n h1 h2
    cases f2 with
    | zero => omega
    | succ f2 =>
      simp only [decDigitsAux]
      by_cases h10 : n < 10
      · rw [if_pos h10, if_pos h10]
      · rw [if_neg h10, if_neg h10]
        have hdiv : n / 10 < n := Nat.div_lt_self (by omega) (by omega)
        rw [ih f2 (n / 10) (by omega) (by omega)]

theorem decDigits_eq (n : Nat) :
    decDigits n = if n < 10 then [48 + n] else decDigits (n / 10) ++ [48 + n % 10] := by
  have h1 : decDigits n =
      if n < 10 then [48 + n] else decDigitsAux n (n / 10) ++ [48 + n % 10] := rfl
  rw [h1]
  by_cases h10 : n < 10
  · rw [if_pos h10, if_pos h10]
  · rw [if_neg h10, if_neg h10]
    have hdiv : n / 10 < n := Nat.div_lt_self (by omega) (by omega)
    rw [decDigitsAux_irrel n (n / 10 + 1) (n / 10) (by omega) (by omega)]
    rfl

theorem decDigits_ne_nil (n : Nat) : decDigits n ≠ [] := by
  rw [decDigits_eq]
  split <;> simp

theorem decDigits_foldl (n : Nat) :
    (decDigits n).foldl (fun a c => a * 10 + (c - 48)) 0 = n := by
  induction n using Nat.strong_induction_on with
  | _ n ih =>
    rw [decDigits_eq]
    by_cases h10 : n < 10
    · rw [if_pos h10]
      simp only [List.foldl_cons, List.foldl_nil]
      omega
    · rw [if_neg h10]
      rw [List.foldl_append]
      have hdiv : n / 10 < n := Nat.div_lt_self (by omega) (by omega)
      rw [ih (n / 10) hdiv]
      simp only [List.foldl_cons, List.foldl_nil]
      omega

theorem decDigits_mem (n : Nat) : ∀ c ∈ decDigits n, 48 ≤ c ∧ c ≤ 57 := by
  induction n using Nat.strong_induction_on with
  | _ n ih =>
    rw [decDigits_eq]
    by_cases h10 : n < 10
    · rw [if_pos h10]
      intro c hc
      simp at hc
      omega
    · rw [if_neg h10]
      intro c hc
      rw [List.mem_append] at hc
      rcases hc with hc | hc
      · exact ih (n / 10) (Nat.div_lt_self (by omega) (by omega)) c hc
      · simp at hc
        have := Nat.mod_lt n (show 0 < 10 by omega)
        omega

theorem decDigits_length_le :
    ∀ (n k : Nat), 1 ≤ k → n < 10 ^ k → (decDigits n).length ≤ k := by
  intro n
  induction n using Nat.strong_induction_on with
  | _ n ih =>
    intro k hk hn
    rw [decDigits_eq]
    by_cases h10 : n < 10
    · rw [if_pos h10]
      simpa using hk
    · rw [if_neg h10]
      rw [List.length_append]
      cases k with
      | zero => omega
      | succ k =>
        have hk1 : 1 ≤ k := by
          by_contra hcon
          have hk0 : k = 0 := by omega
          subst hk0
          simp at hn
          omega
        have hdiv2 : n / 10 < 10 ^ k := by
          rw [Nat.div_lt_iff_lt_mul (by omega)]
          calc n < 10 ^ (k + 1) := hn
          _ = 10 ^ k * 10 := by ring
        have := ih (n / 10) (Nat.div_lt_self (by omega) (by omega)) k hk1 hdiv2
        simp only [List.length_cons, List.length_nil]
        omega

theorem fitoaAux_spec (wid : Nat) :
    ∀ (p n : Nat) (buf : List Nat), p ≤ wid → buf.length = wid + 1 →
      fitoaAux wid n p buf =
        if (decDigits n).length ≤ p then
          List.replicate (p - (decDigits n).length) 32 ++ decDigits n ++ buf.drop p
        else List.replicate wid 42 ++ buf.drop wid := by
  intro p
  induction p with
  | zero =>
    intro n buf _ _
    have h2 : ¬ (decDigits n).length ≤ 0 := by
      simp only [Nat.le_zero, List.length_eq_zero]
      exact decDigits_ne_nil n
    rw [if_neg h2]
    rfl
  | succ p ih =>
    intro n buf hp hlen
    simp only [fitoaAux]
    by_cases h10 : n / 10 = 0
    · rw [if_pos h10]
      have hn10 : n < 10 := by omega
      have hdd : decDigits n = [48 + n] := by rw [decDigits_eq, if_pos hn10]
      have hcond : (decDigits n).length ≤ p + 1 := by
        rw [hdd]
        simp
      rw [if_pos hcond, hdd]
      have hplen : p < buf.length := by omega
      rw [drop_set_self buf p (48 + n % 10) hplen]
      have hmod : n % 10 = n := Nat.mod_eq_of_lt hn10
      rw [hmod]
      simp
    · rw [if_neg h10]
      rw [ih (n / 10) (buf.set p (48 + n % 10)) (by omega)
        (by rw [List.length_set]; exact hlen)]
      have hdd : decDigits n = decDigits (n / 10) ++ [48 + n % 10] := by
        rw [decDigits_eq, if_neg (by omega)]
      by_cases hcase : (decDigits (n / 10)).length ≤ p
      · rw [if_pos hcase]
        have hcond : (decDigits n).length ≤ p + 1 := by
          rw [hdd]
          simp only [List.length_append, List.length_cons, List.length_nil]
          omega
        rw [if_pos hcond, hdd]
        have hplen : p < buf.length := by omega
        rw [drop_set_self buf p (48 + n % 10) hplen]
        have hleneq : p + 1 - (decDigits (n / 10) ++ [48 + n % 10]).length =
            p - (decDigits (n / 10)).length := by
          simp only [List.length_append, List.length_cons, List.length_nil]
          omega
        rw [hleneq]
        simp
      · rw [if_neg hcase]
        have hcond : ¬ (decDigits n).length ≤ p + 1 := by
          rw [hdd]
          simp only [List.length_append, List.length_cons, List.length_nil]
          omega
        rw [if_neg hcond]
        rw [drop_set_of_lt (48 + n % 10) buf p wid (by omega)]

/-- C6: `fixed_itoa` (`fitoa`) writes exactly `wid` data bytes followed by a
zero byte at index `wid`: when the decimal representation of `n` has
`d ≤ wid` digits, `wid - d` space bytes then the digits (so `n = 0` gives
`wid - 1` spaces and `'0'`); when `d > wid`, `wid` asterisk bytes (42). -/
theorem fitoa_fixed_width (n wid : Nat) (s : List Nat)
    (hw : 1 ≤ wid) (hn : n < 2 ^ 32) (hs : s.length = wid + 1) :
    fitoa n wid s =
      (if (decDigits n).length ≤ wid
       then List.replicate (wid - (decDigits n).length) 32 ++ decDigits n
       else List.replicate wid 42) ++ [0] := by
  unfold fitoa
  rw [fitoaAux_spec wid wid n (s.set wid 0) (le_refl wid)
    (by rw [List.length_set]; exact hs)]
  have hdrop : (s.set wid 0).drop wid = [0] := by
    rw [drop_set_self s wid 0 (by omega)]
    have hnil : s.drop (wid + 1) = [] := by
      rw [← hs]
      exact List.drop_length s
    rw [hnil]
  rw [hdrop]
  by_cases hcond : (decDigits n).length ≤ wid
  · rw [if_pos hcond, if_pos hcond, List.append_assoc]
  · rw [if_neg hcond, if_neg hcond]

/-- C6 witness: `fixed_itoa(12345, 3, buf)` yields the overflow sentinel
`"***"`, and `fixed_itoa(7, 4, buf)` yields `"   7"`. -/
theorem fitoa_fixed_width_witness :
    fitoa 12345 3 [0, 0, 0, 0] = [42, 42, 42, 0] ∧
    fitoa 7 4 [0, 0, 0, 0, 0] = [32, 32, 32, 55, 0] := by
  constructor
  · have h := fitoa_fixed_width 12345 3 [0, 0, 0, 0] (by decide) (by decide) (by decide)
    rw [h]
    rfl
  · have h := fitoa_fixed_width 7 4 [0, 0, 0, 0, 0] (by decide) (by decide) (by decide)
    rw [h]
    rfl

/-! ### C5 and C10: hexatoi -/

theorem goodHexB_cases {c : Nat} (h : goodHexB c = true) :
    (48 ≤ c ∧ c ≤ 57) ∨ (65 ≤ c ∧ c ≤ 70) ∨ (97 ≤ c ∧ c ≤ 102) ∨
      c = 32 ∨ c = 45 ∨ c = 43 := by
  simp only [goodHexB, Bool.or_eq_true, decide_eq_true_eq, beq_iff_eq] at h
  tauto

theorem goodHexB_false {c : Nat} (h : goodHexB c = false) :
    ¬(48 ≤ c ∧ c ≤ 57) ∧ ¬(65 ≤ c ∧ c ≤ 70) ∧ ¬(97 ≤ c ∧ c ≤ 102) ∧
      ¬c = 32 ∧ ¬c = 45 ∧ ¬c = 43 := by
  simp only [goodHexB, Bool.or_eq_false_iff, decide_eq_false_iff_not,
    beq_eq_false_iff_ne, ne_eq] at h
  tauto

theorem hexatoiLoop_good :
    ∀ (s : List Nat) (rc : Nat) (sg : Int) (acc : Nat),
      (∀ c ∈ s, goodHexB c = true) →
      hexatoiLoop s rc sg acc =
        (rc ||| (if s.any isSignSpaceB then 4 else 0),
         toSigned64 (if lastSign sg s = -1 then (2 ^ 64 - hexAccumFrom acc s) % 2 ^ 64
                     else hexAccumFrom acc s)) := by
  intro s
  induction s with
  | nil =>
    intro rc sg acc _
    simp [hexatoiLoop, hexAccumFrom, lastSign, Nat.or_zero]
  | cons c s ih =>
    intro rc sg acc hgood
    have hrest : ∀ x ∈ s, goodHexB x = true := fun x hx => hgood x (by simp [hx])
    rcases goodHexB_cases (hgood c (by simp)) with h1 | h1 | h1 | h1 | h1 | h1
    · have hss : isSignSpaceB c = false := by
        simp only [isSignSpaceB, Bool.or_eq_false_iff, beq_eq_false_iff_ne, ne_eq]
        omega
      simp only [hexatoiLoop, hexAccumFrom, lastSign, List.any_cons, hss, Bool.false_or]
      rw [if_pos h1, if_pos h1, if_neg (by omega : ¬c = 45), if_neg (by omega : ¬c = 43)]
      exact ih rc sg _ hrest
    · have hss : isSignSpaceB c = false := by
        simp only [isSignSpaceB, Bool.or_eq_false_iff, beq_eq_false_iff_ne, ne_eq]
        omega
      simp only [hexatoiLoop, hexAccumFrom, lastSign, List.any_cons, hss, Bool.false_or]
      rw [if_neg (by omega : ¬(48 ≤ c ∧ c ≤ 57)), if_pos h1,
        if_neg (by omega : ¬(48 ≤ c ∧ c ≤ 57)), if_pos h1,
        if_neg (by omega : ¬c = 45), if_neg (by omega : ¬c = 43)]
      exact ih rc sg _ hrest
    · have hss : isSignSpaceB c = false := by
        simp only [isSignSpaceB, Bool.or_eq_false_iff, beq_eq_false_iff_ne, ne_eq]
        omega
      simp only [hexatoiLoop, hexAccumFrom, lastSign, List.any_cons, hss, Bool.false_or]
      rw [if_neg (by omega : ¬(48 ≤ c ∧ c ≤ 57)), if_neg (by omega : ¬(65 ≤ c ∧ c ≤ 70)),
        if_pos h1,
        if_neg (by omega : ¬(48 ≤ c ∧ c ≤ 57)), if_neg (by omega : ¬(65 ≤ c ∧ c ≤ 70)),
        if_pos h1,
        if_neg (by omega : ¬c = 45), if_neg (by omega : ¬c = 43)]
      exact ih rc sg _ hrest
    · have hss : isSignSpaceB c = true := by
        simp [isSignSpaceB, h1]
      simp only [hexatoiLoop, hexAccumFrom, lastSign, List.any_cons, hss, Bool.true_or]
      rw [if_neg (by omega : ¬(48 ≤ c ∧ c ≤ 57)), if_neg (by omega : ¬(65 ≤ c ∧ c ≤ 70)),
        if_neg (by omega : ¬(97 ≤ c ∧ c ≤ 102)), if_pos h1,
        if_neg (by omega : ¬(48 ≤ c ∧ c ≤ 57)), if_neg (by omega : ¬(65 ≤ c ∧ c ≤ 70)),
        if_neg (by omega : ¬(97 ≤ c ∧ c ≤ 102)),
        if_neg (by omega : ¬c = 45), if_neg (by omega : ¬c = 43),
        if_pos trivial]
      rw [ih (rc ||| 4) sg acc hrest]
      have hor : (rc ||| 4) ||| (if s.any isSignSpaceB then 4 else 0) = rc ||| 4 := by
        by_cases hany : s.any isSignSpaceB = true
        · rw [if_pos hany, Nat.or_assoc, Nat.or_self]
        · rw [if_neg hany, Nat.or_zero]
      rw [hor]
    · have hss : isSignSpaceB c = true := by
        simp [isSignSpaceB, h1]
      simp only [hexatoiLoop, hexAccumFrom, lastSign, List.any_cons, hss, Bool.true_or]
      rw [if_neg (by omega : ¬(48 ≤ c ∧ c ≤ 57)), if_neg (by omega : ¬(65 ≤ c ∧ c ≤ 70)),
        if_neg (by omega : ¬(97 ≤ c ∧ c ≤ 102)), if_neg (by omega : ¬c = 32), if_pos h1,
        if_neg (by omega : ¬(48 ≤ c ∧ c ≤ 57)), if_neg (by omega : ¬(65 ≤ c ∧ c ≤ 70)),
        if_neg (by omega : ¬(97 ≤ c ∧ c ≤ 102)),
        if_pos h1,
        if_pos trivial]
      rw [ih (rc ||| 4) (-1) acc hrest]
      have hor : (rc ||| 4) ||| (if s.any isSignSpaceB then 4 else 0) = rc ||| 4 := by
        by_cases hany : s.any isSignSpaceB = true
        · rw [if_pos hany, Nat.or_assoc, Nat.or_self]
        · rw [if_neg hany, Nat.or_zero]
      rw [hor]
    · have hss : isSignSpaceB c = true := by
        simp [isSignSpaceB, h1]
      simp only [hexatoiLoop, hexAccumFrom, lastSign, List.any_cons, hss, Bool.true_or]
      rw [if_neg (by omega : ¬(48 ≤ c ∧ c ≤ 57)), if_neg (by omega : ¬(65 ≤ c ∧ c ≤ 70)),
        if_neg (by omega : ¬(97 ≤ c ∧ c ≤ 102)), if_neg (by omega : ¬c = 32),
        if_neg (by omega : ¬c = 45), if_pos h1,
        if_neg (by omega : ¬(48 ≤ c ∧ c ≤ 57)), if_neg (by omega : ¬(65 ≤ c ∧ c ≤ 70)),
        if_neg (by omega : ¬(97 ≤ c ∧ c ≤ 102)),
        if_neg (by omega : ¬c = 45), if_pos h1,
        if_pos trivial]
      rw [ih (rc ||| 4) 1 acc hrest]
      have hor : (rc ||| 4) ||| (if s.any isSignSpaceB then 4 else 0) = rc ||| 4 := by
        by_cases hany : s.any isSignSpaceB = true
        · rw [if_pos hany, Nat.or_assoc, Nat.or_self]
        · rw [if_neg hany, Nat.or_zero]
      rw [hor]

theorem hexatoiLoop_bad :
    ∀ (s : List Nat) (rc : Nat) (sg : Int) (acc : Nat),
      (∃ c ∈ s, goodHexB c = false) → (hexatoiLoop s rc sg acc).1 = 1 := by
  intro s
  induction s with
  | nil =>
    intro rc sg acc h
    simp at h
  | cons c s ih =>
    intro rc sg acc h
    by_cases hgc : goodHexB c = true
    · have hs : ∃ x ∈ s, goodHexB x = false := by
        rcases h with ⟨x, hx, hxb⟩
        rcases List.mem_cons.mp hx with rfl | hx2
        · rw [hgc] at hxb
          cases hxb
        · exact ⟨x, hx2, hxb⟩
      rcases goodHexB_cases hgc with h1 | h1 | h1 | h1 | h1 | h1
      · rw [show hexatoiLoop (c :: s) rc sg acc =
            hexatoiLoop s rc sg ((acc * 16 + (c - 48)) % 2 ^ 64) by
          simp only [hexatoiLoop]; rw [if_pos h1]]
        exact ih rc sg _ hs
      · rw [show hexatoiLoop (c :: s) rc sg acc =
            hexatoiLoop s rc sg ((acc * 16 + (c + 10 - 65)) % 2 ^ 64) by
          simp only [hexatoiLoop]
          rw [if_neg (by omega : ¬(48 ≤ c ∧ c ≤ 57)), if_pos h1]]
        exact ih rc sg _ hs
      · rw [show hexatoiLoop (c :: s) rc sg acc =
            hexatoiLoop s rc sg ((acc * 16 + (c + 10 - 97)) % 2 ^ 64) by
          simp only [hexatoiLoop]
          rw [if_neg (by omega : ¬(48 ≤ c ∧ c ≤ 57)),
            if_neg (by omega : ¬(65 ≤ c ∧ c ≤ 70)), if_pos h1]]
        exact ih rc sg _ hs
      · rw [show hexatoiLoop (c :: s) rc sg acc = hexatoiLoop s (rc ||| 4) sg acc by
          simp only [hexatoiLoop]
          rw [if_neg (by omega : ¬(48 ≤ c ∧ c ≤ 57)),
            if_neg (by omega : ¬(65 ≤ c ∧ c ≤ 70)),
            if_neg (by omega : ¬(97 ≤ c ∧ c ≤ 102)), if_pos h1]]
        exact ih (rc ||| 4) sg acc hs
      · rw [show hexatoiLoop (c :: s) rc sg acc = hexatoiLoop s (rc ||| 4) (-1) acc by
          simp only [hexatoiLoop]
          rw [if_neg (by omega : ¬(48 ≤ c ∧ c ≤ 57)),
            if_neg (by omega : ¬(65 ≤ c ∧ c ≤ 70)),
            if_neg (by omega : ¬(97 ≤ c ∧ c ≤ 102)),
            if_neg (by omega : ¬c = 32), if_pos h1]]
        exact ih (rc ||| 4) (-1) acc hs
      · rw [show hexatoiLoop (c :: s) rc sg acc = hexatoiLoop s (rc ||| 4) 1 acc by
          simp only [hexatoiLoop]
          rw [if_neg (by omega : ¬(48 ≤ c ∧ c ≤ 57)),
            if_neg (by omega : ¬(65 ≤ c ∧ c ≤ 70)),
            if_neg (by omega : ¬(97 ≤ c ∧ c ≤ 102)),
            if_neg (by omega : ¬c = 32), if_neg (by omega : ¬c = 45), if_pos h1]]
        exact ih (rc ||| 4) 1 acc hs
    · have hbf : goodHexB c = false := by
        cases hgcv : goodHexB c
        · rfl
        · exact absurd hgcv hgc
      obtain ⟨hn1, hn2, hn3, hn4, hn5, hn6⟩ := goodHexB_false hbf
      simp only [hexatoiLoop]
      rw [if_neg hn1, if_neg hn2, if_neg hn3, if_neg hn4, if_neg hn5, if_neg hn6]

theorem hexatoiLoop_bad_at :
    ∀ (s : List Nat) (i : Nat) (rc : Nat) (sg : Int) (acc : Nat),
      i < s.length → (∀ j, j < i → goodHexB (s.getD j 0) = true) →
      goodHexB (s.getD i 0) = false →
      hexatoiLoop s rc sg acc = (1, toSigned64 (hexAccumFrom acc (s.take i))) := by
  intro s
  induction s with
  | nil =>
    intro i rc sg acc h
    simp at h
  | cons c s ih =>
    intro i rc sg acc hi hpre hbad
    cases i with
    | zero =>
      obtain ⟨hn1, hn2, hn3, hn4, hn5, hn6⟩ := goodHexB_false (by simpa using hbad)
      simp only [hexatoiLoop]
      rw [if_neg hn1, if_neg hn2, if_neg hn3, if_neg hn4, if_neg hn5, if_neg hn6]
      simp [hexAccumFrom]
    | succ i =>
      have hgc : goodHexB c = true := by
        have h0 := hpre 0 (by omega)
        simpa using h0
      have hpre2 : ∀ j, j < i → goodHexB (s.getD j 0) = true := by
        intro j hj
        have hj1 := hpre (j + 1) (by omega)
        simpa using hj1
      have hbad2 : goodHexB (s.getD i 0) = false := by simpa using hbad
      have hi2 : i < s.length := by simpa using hi
      rcases goodHexB_cases hgc with h1 | h1 | h1 | h1 | h1 | h1
      · rw [show hexatoiLoop (c :: s) rc sg acc =
            hexatoiLoop s rc sg ((acc * 16 + (c - 48)) % 2 ^ 64) by
          simp only [hexatoiLoop]; rw [if_pos h1]]
        rw [show hexAccumFrom acc ((c :: s).take (i + 1)) =
            hexAccumFrom ((acc * 16 + (c - 48)) % 2 ^ 64) (s.take i) by
          rw [List.take_succ_cons]
          simp only [hexAccumFrom]
          rw [if_pos h1]]
        exact ih i rc sg _ hi2 hpre2 hbad2
      · rw [show hexatoiLoop (c :: s) rc sg acc =
            hexatoiLoop s rc sg ((acc * 16 + (c + 10 - 65)) % 2 ^ 64) by
          simp only [hexatoiLoop]
          rw [if_neg (by omega : ¬(48 ≤ c ∧ c ≤ 57)), if_pos h1]]
        rw [show hexAccumFrom acc ((c :: s).take (i + 1)) =
            hexAccumFrom ((acc * 16 + (c + 10 - 65)) % 2 ^ 64) (s.take i) by
          rw [List.take_succ_cons]
          simp only [hexAccumFrom]
          rw [if_neg (by omega : ¬(48 ≤ c ∧ c ≤ 57)), if_pos h1]]
        exact ih i rc sg _ hi2 hpre2 hbad2
      · rw [show hexatoiLoop (c :: s) rc sg acc =
            hexatoiLoop s rc sg ((acc * 16 + (c + 10 - 97)) % 2 ^ 64) by
          simp only [hexatoiLoop]
          rw [if_neg (by omega : ¬(48 ≤ c ∧ c ≤ 57)),
            if_neg (by omega : ¬(65 ≤ c ∧ c ≤ 70)), if_pos h1]]
        rw [show hexAccumFrom acc ((c :: s).take (i + 1)) =
            hexAccumFrom ((acc * 16 + (c + 10 - 97)) % 2 ^ 64) (s.take i) by
          rw [List.take_succ_cons]
          simp only [hexAccumFrom]
          rw [if_neg (by omega : ¬(48 ≤ c ∧ c ≤ 57)),
            if_neg (by omega : ¬(65 ≤ c ∧ c ≤ 70)), if_pos h1]]
        exact ih i rc sg _ hi2 hpre2 hbad2
      · rw [show hexatoiLoop (c :: s) rc sg acc = hexatoiLoop s (rc ||| 4) sg acc by
          simp only [hexatoiLoop]
          rw [if_neg (by omega : ¬(48 ≤ c ∧ c ≤ 57)),
            if_neg (by omega : ¬(65 ≤ c ∧ c ≤ 70)),
            if_neg (by omega : ¬(97 ≤ c ∧ c ≤ 102)), if_pos h1]]
        rw [show hexAccumFrom acc ((c :: s).take (i + 1)) = hexAccumFrom acc (s.take i) by
          rw [List.take_succ_cons]
          simp only [hexAccumFrom]
          rw [if_neg (by omega : ¬(48 ≤ c ∧ c ≤ 57)),
            if_neg (by omega : ¬(65 ≤ c ∧ c ≤ 70)),
            if_neg (by omega : ¬(97 ≤ c ∧ c ≤ 102))]]
        exact ih i (rc ||| 4) sg acc hi2 hpre2 hbad2
      · rw [show hexatoiLoop (c :: s) rc sg acc = hexatoiLoop s (rc ||| 4) (-1) acc by
          simp only [hexatoiLoop]
          rw [if_neg (by omega : ¬(48 ≤ c ∧ c ≤ 57)),
            if_neg (by omega : ¬(65 ≤ c ∧ c ≤ 70)),
            if_neg (by omega : ¬(97 ≤ c ∧ c ≤ 102)),
            if_neg (by omega : ¬c = 32), if_pos h1]]
        rw [show hexAccumFrom acc ((c :: s).take (i + 1)) = hexAccumFrom acc (s.take i) by
          rw [List.take_succ_cons]
          simp only [hexAccumFrom]
          rw [if_neg (by omega : ¬(48 ≤ c ∧ c ≤ 57)),
            if_neg (by omega : ¬(65 ≤ c ∧ c ≤ 70)),
            if_neg (by omega : ¬(97 ≤ c ∧ c ≤ 102))]]
        exact ih i (rc ||| 4) (-1) acc hi2 hpre2 hbad2
      · rw [show hexatoiLoop (c :: s) rc sg acc = hexatoiLoop s (rc ||| 4) 1 acc by
          simp only [hexatoiLoop]
          rw [if_neg (by omega : ¬(48 ≤ c ∧ c ≤ 57)),
            if_neg (by omega : ¬(65 ≤ c ∧ c ≤ 70)),
            if_neg (by omega : ¬(97 ≤ c ∧ c ≤ 102)),
            if_neg (by omega : ¬c = 32), if_neg (by omega : ¬c = 45), if_pos h1]]
        rw [show hexAccumFrom acc ((c :: s).take (i + 1)) = hexAccumFrom acc (s.take i) by
          rw [List.take_succ_cons]
          simp only [hexAccumFrom]
          rw [if_neg (by omega : ¬(48 ≤ c ∧ c ≤ 57)),
            if_neg (by omega : ¬(65 ≤ c ∧ c ≤ 70)),
            if_neg (by omega : ¬(97 ≤ c ∧ c ≤ 102))]]
        exact ih i (rc ||| 4) 1 acc hi2 hpre2 hbad2

/-- C5: over slices made only of hex digits, spaces and signs, `parse_hex`
(`hexatoi`) returns 0 when the slice holds only hex digits and 4 when at
least one sign or space occurs anywhere; the stored value is the
left-to-right shift-accumulation of the hex digits, two's-complement
negated exactly when the last sign byte seen is `-`; on `"  -ff"` it
returns 4 with value -255; and any byte outside these classes makes the
return code 1. -/
theorem hexatoi_class_spec :
    (∀ s : List Nat, (∀ c ∈ s, goodHexB c = true) →
      hexatoi s s.length =
        ((if s.any isSignSpaceB then 4 else 0),
         toSigned64 (if lastSign 0 s = -1 then (2 ^ 64 - hexAccumFrom 0 s) % 2 ^ 64
                     else hexAccumFrom 0 s))) ∧
    hexatoi [32, 32, 45, 102, 102] 5 = (4, -255) ∧
    (∀ s : List Nat, (∃ c ∈ s, goodHexB c = false) → (hexatoi s s.length).1 = 1) := by
  refine ⟨?_, by decide, ?_⟩
  · intro s hgood
    unfold hexatoi
    rw [List.take_length, hexatoiLoop_good s 0 0 0 hgood, Nat.zero_or]
  · intro s hbad
    unfold hexatoi
    rw [List.take_length]
    exact hexatoiLoop_bad s 0 0 0 hbad

/-- C5 witness: `"1a"` is digits-only, giving code 0 and value 26;
`"1x"` contains a byte outside the classes, giving code 1. -/
theorem hexatoi_class_spec_witness :
    hexatoi [49, 97] 2 = (0, 26) ∧ (hexatoi [49, 120] 2).1 = 1 := by
  constructor
  · have h := hexatoi_class_spec.1 [49, 97] (by decide)
    exact h.trans (by decide)
  · exact hexatoi_class_spec.2.2 [49, 120] (by decide)

/-- C10: `hexatoi` stores into `*value` while scanning, so when it returns
the failure code 1 at the first byte outside its classes, `*value` holds
the partial (unsigned, un-negated) accumulation of the hex digits that
preceded the failure point, not the original contents. -/
theorem hexatoi_failure_value (s : List Nat) (i : Nat)
    (hi : i < s.length) (hpre : ∀ j, j < i → goodHexB (s.getD j 0) = true)
    (hbad : goodHexB (s.getD i 0) = false) :
    hexatoi s s.length = (1, toSigned64 (hexAccumFrom 0 (s.take i))) := by
  unfold hexatoi
  rw [List.take_length]
  exact hexatoiLoop_bad_at s i 0 0 0 hi hpre hbad

/-- C10 witness: on `"fx"` the failure at `x` (byte 120) returns code 1
with `*value` already holding 15, the accumulation of the leading `f`. -/
theorem hexatoi_failure_value_witness : hexatoi [102, 120] 2 = (1, 15) := by
  have h := hexatoi_failure_value [102, 120] 1 (by decide) (by decide) (by decide)
  exact h.trans (by decide)

/-! ### strtoll model lemmas -/

theorem hasSignB_ne_nil (s : List Nat) (h : hasSignB s = true) : afterWs s ≠ [] := by
  intro hnil
  unfold hasSignB at h
  rw [hnil] at h
  simp at h

theorem consumedLen_le (s : List Nat) : consumedLen s ≤ s.length := by
  have hlen : wsLen s + (afterWs s).length = s.length := by
    unfold wsLen afterWs
    rw [← List.length_append, List.takeWhile_append_dropWhile]
  unfold consumedLen
  by_cases hsgn : hasSignB s = true
  · rw [if_pos hsgn]
    have hne : afterWs s ≠ [] := hasSignB_ne_nil s hsgn
    have hds : (digitsPart s).length ≤ (afterWs s).tail.length := by
      unfold digitsPart
      rw [if_pos hsgn]
      exact takeWhile_length_le _ _
    have htail : (afterWs s).tail.length = (afterWs s).length - 1 := List.length_tail _
    have hpos : 1 ≤ (afterWs s).length := by
      cases haw : afterWs s with
      | nil => exact absurd haw hne
      | cons c t => simp
    omega
  · rw [if_neg hsgn]
    have hds : (digitsPart s).length ≤ (afterWs s).length := by
      unfold digitsPart
      rw [if_neg hsgn]
      exact takeWhile_length_le _ _
    omega

theorem strtoll10_consumed_le (s : List Nat) : (strtoll10 s).consumed ≤ s.length := by
  unfold strtoll10
  split
  · simp
  · split
    · simpa using consumedLen_le s
    · simpa using consumedLen_le s

theorem strtoll10_consumed_not_ws (s : List Nat) (k : Nat)
    (hw : wsLen s ≤ k) (hk : k < (strtoll10 s).consumed) :
    isWsB (s.getD k 0) = false := by
  have hk2 : k < consumedLen s := by
    have hcases : (strtoll10 s).consumed = 0 ∨ (strtoll10 s).consumed = consumedLen s := by
      unfold strtoll10
      split
      · left; rfl
      · split
        · right; rfl
        · right; rfl
    rcases hcases with h0 | hc
    · omega
    · omega
  have hsplit : s.takeWhile isWsB ++ afterWs s = s := List.takeWhile_append_dropWhile _ _
  have hgd : s.getD k 0 = (afterWs s).getD (k - wsLen s) 0 := by
    conv_lhs => rw [← hsplit]
    exact List.getD_append_right _ _ _ _ hw
  rw [hgd]
  unfold consumedLen at hk2
  by_cases hsgn : hasSignB s = true
  · rw [if_pos hsgn] at hk2
    obtain ⟨c0, t, haw⟩ := List.exists_cons_of_ne_nil (hasSignB_ne_nil s hsgn)
    have hc0 : c0 = 45 ∨ c0 = 43 := by
      unfold hasSignB at hsgn
      rw [haw] at hsgn
      simpa using hsgn
    rw [haw]
    rcases Nat.eq_zero_or_pos (k - wsLen s) with h0 | hpos0
    · rw [h0, List.getD_cons_zero]
      rcases hc0 with rfl | rfl <;> decide
    · obtain ⟨j, hj⟩ : ∃ j, k - wsLen s = j + 1 := ⟨k - wsLen s - 1, by omega⟩
      rw [hj, List.getD_cons_succ]
      have hdp : digitsPart s = t.takeWhile isDigitB := by
        unfold digitsPart
        rw [if_pos hsgn, haw]
        rfl
      have hjlt : j < (t.takeWhile isDigitB).length := by
        rw [← hdp]
        omega
      exact digit_not_ws (takeWhile_getD isDigitB t j hjlt)
  · rw [if_neg hsgn] at hk2
    have hdp : digitsPart s = (afterWs s).takeWhile isDigitB := by
      unfold digitsPart
      rw [if_neg hsgn]
    have hjlt : k - wsLen s < ((afterWs s).takeWhile isDigitB).length := by
      rw [← hdp]
      omega
    exact digit_not_ws (takeWhile_getD isDigitB (afterWs s) (k - wsLen s) hjlt)

theorem strtoll10_digits (L : List Nat) (h1 : L ≠ [])
    (h2 : ∀ c ∈ L, isDigitB c = true)
    (hsmall : L.foldl (fun a c => a * 10 + (c - 48)) 0 < 2 ^ 63) :
    strtoll10 L =
      ⟨((L.foldl (fun a c => a * 10 + (c - 48)) 0 : Nat) : Int), L.length, false⟩ := by
  obtain ⟨c, t, rfl⟩ := List.exists_cons_of_ne_nil h1
  have hdc : isDigitB c = true := h2 c (by simp)
  have hcw : isWsB c = false := digit_not_ws hdc
  have hcd : 48 ≤ c ∧ c ≤ 57 := by simpa [isDigitB] using hdc
  have haw : afterWs (c :: t) = c :: t := by
    simp [afterWs, List.dropWhile_cons, hcw]
  have hwl : wsLen (c :: t) = 0 := by
    simp [wsLen, List.takeWhile_cons, hcw]
  have hsign : hasSignB (c :: t) = false := by
    simp only [hasSignB, haw, List.headD_cons, Bool.or_eq_false_iff,
      beq_eq_false_iff_ne, ne_eq]
    omega
  have hneg : negB (c :: t) = false := by
    simp only [negB, haw, List.headD_cons, beq_eq_false_iff_ne, ne_eq]
    omega
  have hdp : digitsPart (c :: t) = c :: t := by
    unfold digitsPart
    rw [hsign]
    simp only [Bool.false_eq_true, if_false]
    rw [haw]
    exact List.takeWhile_eq_self_iff.mpr h2
  have hmag : magnitude (c :: t) = (c :: t).foldl (fun a c => a * 10 + (c - 48)) 0 := by
    unfold magnitude
    rw [hdp]
  have hval : signedVal (c :: t) =
      (((c :: t).foldl (fun a c => a * 10 + (c - 48)) 0 : Nat) : Int) := by
    unfold signedVal
    rw [hneg]
    simp only [Bool.false_eq_true, if_false]
    rw [hmag]
  have hcons : consumedLen (c :: t) = (c :: t).length := by
    unfold consumedLen
    rw [hwl, hsign, hdp]
    simp
  unfold strtoll10
  rw [if_neg (by rw [hdp]; simp : ¬ digitsPart (c :: t) = [])]
  rw [if_neg ?hrange]
  case hrange =>
    rw [hval]
    push_neg
    constructor
    · calc -(2 : Int) ^ 63 ≤ 0 := by norm_num
      _ ≤ _ := Int.ofNat_nonneg _
    · exact_mod_cast hsmall
  rw [hval, hcons]

/-- C3 amended: `decatoi` delegates to `strtoll`, which does skip *leading*
whitespace; what holds is that any whitespace byte occurring after a
non-whitespace byte of the slice makes `decatoi` return 0 with `*value`
unchanged (slices of length ≤ 20). -/
theorem decatoi_nonleading_ws (s : List Nat) (len i j : Nat)
    (hlen : len ≤ 20) (hj : j < i) (hi : i < len)
    (hjw : isWsB (s.getD j 0) = false) (hiw : isWsB (s.getD i 0) = true) :
    decatoi s len = none := by
  unfold decatoi
  rw [if_neg (by omega)]
  by_cases herr : (strtoll10 (str2conv s len)).erange = true
  · rw [if_pos herr]
  · rw [if_neg herr]
    have hcons : (strtoll10 (str2conv s len)).consumed ≠ len := by
      intro hc
      have h1 : (strtoll10 (str2conv s len)).consumed ≤ (str2conv s len).length :=
        strtoll10_consumed_le _
      have h2 : (str2conv s len).length ≤ (s.take len).length := takeWhile_length_le _ _
      have h3 : (s.take len).length ≤ len := by
        rw [List.length_take]
        omega
      have h4 : ((s.take len).takeWhile (fun c => c != 0)).length = (s.take len).length := by
        have h40 : (str2conv s len).length =
            ((s.take len).takeWhile (fun c => c != 0)).length := rfl
        omega
      have h5 : str2conv s len = s.take len := takeWhile_length_eq _ _ h4
      have hbyte : ∀ k, k < len → (str2conv s len).getD k 0 = s.getD k 0 := by
        intro k hk
        rw [h5]
        exact getD_take s len k hk
      have hwj : wsLen (str2conv s len) ≤ j := by
        by_contra hcon
        push_neg at hcon
        have hjws := takeWhile_getD isWsB (str2conv s len) j hcon
        rw [hbyte j (by omega)] at hjws
        rw [hjw] at hjws
        exact Bool.false_ne_true hjws
      have hnws := strtoll10_consumed_not_ws (str2conv s len) i (by omega) (by omega)
      rw [hbyte i hi] at hnws
      rw [hiw] at hnws
      exact Bool.false_ne_true hnws.symm
    rw [if_pos hcons]

/-- C3 amended witness: `"1 3"` has a whitespace byte after a digit and is
rejected with `*value` untouched. -/
theorem decatoi_nonleading_ws_witness : decatoi [49, 32, 51] 3 = none :=
  decatoi_nonleading_ws [49, 32, 51] 3 1 0 (by decide) (by decide) (by decide)
    (by decide) (by decide)

/-- C7: decimal render/parse round-trip.  For every 32-bit `n`, rendering
`n` unpadded (as `numzcat` does: `fitoa` into a width-11 field, then
skipping the leading spaces) and parsing the digit string back with
`decatoi` succeeds and returns exactly `n`. -/
theorem decatoi_fitoa_roundtrip (n : Nat) (hn : n < 2 ^ 32) :
    decatoi (fitoaUnpadded n) (fitoaUnpadded n).length = some n := by
  have hd10 : (decDigits n).length ≤ 10 :=
    decDigits_length_le n 10 (by norm_num) (lt_trans hn (by norm_num))
  have hmem := decDigits_mem n
  have hfit : fitoa n 11 (List.replicate 12 0) =
      List.replicate (11 - (decDigits n).length) 32 ++ (decDigits n ++ [0]) := by
    rw [fitoa_fixed_width n 11 (List.replicate 12 0) (by norm_num) hn (by simp)]
    rw [if_pos (by omega)]
    rw [List.append_assoc]
  have hunp : fitoaUnpadded n = decDigits n := by
    unfold fitoaUnpadded
    rw [hfit]
    rw [dropWhile_replicate_append (fun c => c == 32) 32 (by decide) _
      (decDigits n ++ [0])]
    obtain ⟨c, t, hdd⟩ := List.exists_cons_of_ne_nil (decDigits_ne_nil n)
    have hc48 : 48 ≤ c ∧ c ≤ 57 := hmem c (by rw [hdd]; simp)
    rw [hdd, List.cons_append, List.dropWhile_cons]
    rw [if_neg (by simp only [beq_iff_eq]; omega)]
    have hshape : c :: (t ++ [0]) = (c :: t) ++ 0 :: [] := by simp
    rw [hshape]
    refine takeWhile_append_stop (fun c => c != 0) 0 (by decide) (c :: t) [] ?_
    intro x hx
    have hx48 : 48 ≤ x ∧ x ≤ 57 := hmem x (by rw [hdd]; exact hx)
    simp only [bne_iff_ne, ne_eq]
    omega
  rw [hunp]
  have hall : ∀ c ∈ decDigits n, isDigitB c = true := by
    intro c hc
    have hcr := hmem c hc
    simp only [isDigitB, decide_eq_true_eq]
    omega
  have hfold : (decDigits n).foldl (fun a c => a * 10 + (c - 48)) 0 = n :=
    decDigits_foldl n
  have hstr2 : str2conv (decDigits n) (decDigits n).length = decDigits n := by
    unfold str2conv
    rw [List.take_length]
    refine List.takeWhile_eq_self_iff.mpr ?_
    intro x hx
    have hxr := hmem x hx
    simp only [bne_iff_ne, ne_eq]
    omega
  have hsmall : (decDigits n).foldl (fun a c => a * 10 + (c - 48)) 0 < 2 ^ 63 := by
    rw [hfold]
    calc n < 2 ^ 32 := hn
    _ < 2 ^ 63 := by norm_num
  have heval := strtoll10_digits (decDigits n) (decDigits_ne_nil n) hall hsmall
  have heptr : (decDigits n ++ [0]).getD (decDigits n).length 0 = 0 := by
    rw [List.getD_append_right _ _ _ _ (le_refl _)]
    simp
  unfold decatoi
  rw [if_neg (by omega : ¬ 20 < (decDigits n).length)]
  rw [hstr2, heval]
  simp [heptr, hfold]

/-- C7 witness: the round trip at `n = 42`. -/
theorem decatoi_fitoa_roundtrip_witness :
    decatoi (fitoaUnpadded 42) (fitoaUnpadded 42).length = some 42 :=
  decatoi_fitoa_roundtrip 42 (by decide)
